import Mathlib

/-!
Shallow embedding of `bigrams.py`, a word-prediction aid built from bigram
counts, together with proofs of the specification's claims about it.

Conventions of the embedding:
* Python strings are Lean `String`s; the corpus token list is `List String`.
* A bigram `(w1, w2)` is a `String × String`.
* The Python dict built by `count_bigrams` is modelled as an association list
  `List (Bigram × Nat)` kept in insertion order (Python dicts preserve
  insertion order); updating an existing key keeps its position and a new key
  is appended at the end, exactly as a Python dict behaves.
* A ranked entry `(count, bigram)` is a `Nat × String × String` (the product
  associates to the right, so `e.1` is the count, `e.2.1` the first word and
  `e.2.2` the second word, matching `cp[0]`, `cp[1][0]`, `cp[1][1]`).
* `result.sort()` on distinct tuples followed by `result.reverse()` is
  modelled by `List.insertionSort` with the (non-strict) Python tuple order
  followed by `List.reverse`; on lists whose elements are pairwise distinct
  — always the case here, since the bigram components of the tuples are the
  distinct keys of a dict — every correct stable sort produces the same
  output, so this is observationally the code's sort.
* The float division `100*c/w_total` is modelled in `ℚ`, with the
  `ZeroDivisionError` made explicit: an `Option` that is `none` exactly when
  Python would raise.
-/

namespace Bigrams

/-- An ordered pair of consecutive words. -/
abbrev Bigram := String × String

/-- The frequency table: a Python dict from bigram to count, in insertion
order. -/
abbrev FreqTable := List (Bigram × Nat)

/-- A ranked `(count, bigram)` entry, and the ranked list of them. -/
abbrev RankedList := List (Nat × String × String)

/-! ### Bigram extraction (`make_bigrams`) -/

/-- Embedding of `make_bigrams`: for `i in range(1, len(words))` append
`(words[i-1], words[i])`. `List.range' 1 (n-1)` is `[1, ..., n-1]`, i.e.
Python's `range(1, n)`. Out-of-range defaults are never used since every
index is in range. -/
def make_bigrams (words : List String) : List Bigram :=
  (List.range' 1 (words.length - 1)).map fun i =>
    (words.getD (i - 1) "", words.getD i "")

example : make_bigrams ["once", "upon", "a", "time"] =
    [("once", "upon"), ("upon", "a"), ("a", "time")] := by decide

theorem make_bigrams_length (words : List String) :
    (make_bigrams words).length = words.length - 1 := by
  simp [make_bigrams]

theorem make_bigrams_getD (words : List String) (i : Nat)
    (h : i < words.length - 1) :
    (make_bigrams words).getD i ("", "") =
      (words.getD i "", words.getD (i + 1) "") := by
  have hlen : (make_bigrams words).length = words.length - 1 :=
    make_bigrams_length words
  have hi : i < (make_bigrams words).length := by omega
  rw [List.getD_eq_getElem _ _ hi]
  simp only [make_bigrams, List.getElem_map]
  have hr : i < (List.range' 1 (words.length - 1)).length := by
    simpa using h
  simp [List.getElem_range', Nat.add_comm 1 i]

/-! ### Frequency counting (`count_bigrams`) -/

/-- One iteration of the `count_bigrams` loop on the dict: if `bg` is already
a key, increment its value in place; otherwise append `(bg, 1)` at the end.
(On a table with no duplicate keys — the invariant of a dict — updating the
first occurrence is exactly the dict update.) -/
def updIncr : FreqTable → Bigram → FreqTable
  | [], bg => [(bg, 1)]
  | (k, v) :: t, bg => if k = bg then (k, v + 1) :: t else (k, v) :: updIncr t bg

/-- Embedding of `count_bigrams`: fold the loop over the input bigrams,
starting from the empty dict. -/
def count_bigrams (bigrams : List Bigram) : FreqTable :=
  bigrams.foldl updIncr []

/-- Dict lookup on the association list. -/
def lookupBG (bg : Bigram) : FreqTable → Option Nat
  | [] => none
  | (k, v) :: t => if k = bg then some v else lookupBG bg t

/-- The key list of the table, in insertion order. -/
def keysBG (t : FreqTable) : List Bigram := t.map Prod.fst

/-- The sum of all counts in the table. -/
def sumCounts (t : FreqTable) : Nat := (t.map Prod.snd).sum

example : count_bigrams [("a","b"), ("b","a"), ("a","b"), ("b","a"), ("a","c")]
    = [(("a","b"), 2), (("b","a"), 2), (("a","c"), 1)] := by decide

theorem lookupBG_updIncr_self (t : FreqTable) (bg : Bigram) :
    lookupBG bg (updIncr t bg) = some ((lookupBG bg t).getD 0 + 1) := by
  induction t with
  | nil => simp [updIncr, lookupBG]
  | cons p t ih =>
    obtain ⟨k, v⟩ := p
    by_cases hk : k = bg
    · simp [updIncr, lookupBG, hk]
    · simp [updIncr, lookupBG, hk, ih]

theorem lookupBG_updIncr_other (t : FreqTable) (bg b : Bigram) (hne : b ≠ bg) :
    lookupBG b (updIncr t bg) = lookupBG b t := by
  have hne2 : ¬ bg = b := fun h => hne h.symm
  induction t with
  | nil => simp [updIncr, lookupBG, hne2]
  | cons p t ih =>
    obtain ⟨k, v⟩ := p
    by_cases hk : k = bg
    · subst hk
      simp [updIncr, lookupBG, hne2]
    · simp [updIncr, lookupBG, hk, ih]

theorem sumCounts_updIncr (t : FreqTable) (bg : Bigram) :
    sumCounts (updIncr t bg) = sumCounts t + 1 := by
  induction t with
  | nil => simp [updIncr, sumCounts]
  | cons p t ih =>
    obtain ⟨k, v⟩ := p
    by_cases hk : k = bg
    · simp [updIncr, sumCounts, hk]
      omega
    · simp only [updIncr, if_neg hk, sumCounts, List.map_cons, List.sum_cons] at *
      omega

theorem keysBG_updIncr (t : FreqTable) (bg : Bigram) :
    keysBG (updIncr t bg) =
      if bg ∈ keysBG t then keysBG t else keysBG t ++ [bg] := by
  induction t with
  | nil => simp [updIncr, keysBG]
  | cons p t ih =>
    obtain ⟨k, v⟩ := p
    by_cases hk : k = bg
    · simp [updIncr, keysBG, hk]
    · have hbk : ¬ bg = k := fun h => hk h.symm
      by_cases hmem : bg ∈ keysBG t <;>
        · simp only [keysBG, List.map_cons] at hmem ⊢
          simp only [updIncr, if_neg hk, List.map_cons, List.mem_cons, hbk,
            false_or, hmem, if_true, if_false]
          simp only [keysBG] at ih
          simp [ih, hmem]

theorem keysBG_nodup_updIncr (t : FreqTable) (bg : Bigram)
    (h : (keysBG t).Nodup) : (keysBG (updIncr t bg)).Nodup := by
  rw [keysBG_updIncr]
  by_cases hmem : bg ∈ keysBG t
  · simpa [hmem]
  · simpa [hmem, List.nodup_append] using h

theorem counts_pos_updIncr (t : FreqTable) (bg : Bigram)
    (h : ∀ p ∈ t, 1 ≤ p.2) : ∀ p ∈ updIncr t bg, 1 ≤ p.2 := by
  induction t with
  | nil => simp [updIncr]
  | cons q t ih =>
    obtain ⟨k, v⟩ := q
    by_cases hk : k = bg
    · intro p hp
      simp only [updIncr, if_pos hk] at hp
      rcases List.mem_cons.mp hp with h1 | h1
      · subst h1; simp
      · exact h p (List.mem_cons_of_mem _ h1)
    · intro p hp
      simp only [updIncr, if_neg hk] at hp
      rcases List.mem_cons.mp hp with h1 | h1
      · subst h1
        exact h (k, v) (List.mem_cons_self _ _)
      · exact ih (fun q hq => h q (List.mem_cons_of_mem _ hq)) p h1

theorem lookupBG_isSome_iff (b : Bigram) (t : FreqTable) :
    (lookupBG b t).isSome ↔ b ∈ keysBG t := by
  induction t with
  | nil => simp [lookupBG, keysBG]
  | cons p t ih =>
    obtain ⟨k, v⟩ := p
    by_cases hk : k = b
    · simp [lookupBG, keysBG, hk]
    · have hbk : ¬ b = k := fun h => hk h.symm
      simp [lookupBG, keysBG, hk, hbk, ih]

theorem getCount_foldl (bgs : List Bigram) :
    ∀ acc : FreqTable, ∀ b : Bigram,
      (lookupBG b (bgs.foldl updIncr acc)).getD 0 =
        (lookupBG b acc).getD 0 + bgs.count b := by
  induction bgs with
  | nil => simp
  | cons bg bgs ih =>
    intro acc b
    rw [List.foldl_cons, ih, List.count_cons]
    by_cases hb : b = bg
    · subst hb
      rw [lookupBG_updIncr_self]
      simp only [Option.getD_some, beq_self_eq_true, if_true]
      omega
    · rw [lookupBG_updIncr_other _ _ _ hb]
      have : ¬ (bg == b) = true := by simpa using fun h => hb h.symm
      simp [this]

theorem sumCounts_foldl (bgs : List Bigram) :
    ∀ acc : FreqTable,
      sumCounts (bgs.foldl updIncr acc) = sumCounts acc + bgs.length := by
  induction bgs with
  | nil => simp
  | cons bg bgs ih =>
    intro acc
    rw [List.foldl_cons, ih, sumCounts_updIncr]
    simp [Nat.add_assoc, Nat.add_comm 1]

theorem keysBG_mem_foldl (bgs : List Bigram) :
    ∀ acc : FreqTable, ∀ b : Bigram,
      b ∈ keysBG (bgs.foldl updIncr acc) ↔ b ∈ keysBG acc ∨ b ∈ bgs := by
  induction bgs with
  | nil => simp
  | cons bg bgs ih =>
    intro acc b
    rw [List.foldl_cons, ih, keysBG_updIncr]
    by_cases hmem : bg ∈ keysBG acc
    · simp only [if_pos hmem, List.mem_cons]
      constructor
      · rintro (h | h) <;> tauto
      · rintro (h | h | h)
        · tauto
        · subst h; tauto
        · tauto
    · simp only [if_neg hmem, List.mem_append, List.mem_cons, List.mem_singleton]
      tauto

theorem keysBG_nodup_foldl (bgs : List Bigram) :
    ∀ acc : FreqTable, (keysBG acc).Nodup →
      (keysBG (bgs.foldl updIncr acc)).Nodup := by
  induction bgs with
  | nil => exact fun acc h => h
  | cons bg bgs ih =>
    intro acc h
    rw [List.foldl_cons]
    exact ih _ (keysBG_nodup_updIncr _ _ h)

theorem counts_pos_foldl (bgs : List Bigram) :
    ∀ acc : FreqTable, (∀ p ∈ acc, 1 ≤ p.2) →
      ∀ p ∈ bgs.foldl updIncr acc, 1 ≤ p.2 := by
  induction bgs with
  | nil => exact fun acc h => h
  | cons bg bgs ih =>
    intro acc h
    rw [List.foldl_cons]
    exact ih _ (counts_pos_updIncr _ _ h)

/-- C6: the frequency table built by `count_bigrams` maps each distinct
bigram of the input to its number of occurrences; the sum of all counts is
the length of the input; the key set is exactly the set of distinct input
bigrams (with no duplicate keys); and every count is at least 1. -/
theorem count_bigrams_spec (bgs : List Bigram) :
    (∀ b : Bigram, lookupBG b (count_bigrams bgs) =
        if 0 < bgs.count b then some (bgs.count b) else none)
    ∧ sumCounts (count_bigrams bgs) = bgs.length
    ∧ (∀ b : Bigram, b ∈ keysBG (count_bigrams bgs) ↔ b ∈ bgs)
    ∧ (keysBG (count_bigrams bgs)).Nodup
    ∧ (∀ p ∈ count_bigrams bgs, 1 ≤ p.2) := by
  have hmem : ∀ b : Bigram, b ∈ keysBG (count_bigrams bgs) ↔ b ∈ bgs := by
    intro b
    rw [count_bigrams, keysBG_mem_foldl]
    simp [keysBG]
  refine ⟨?_, ?_, hmem, ?_, ?_⟩
  · intro b
    have hget : (lookupBG b (count_bigrams bgs)).getD 0 = bgs.count b := by
      rw [count_bigrams, getCount_foldl]
      simp [lookupBG]
    by_cases hb : b ∈ bgs
    · have hpos : 0 < bgs.count b := List.count_pos_iff.mpr hb
      have hsome : (lookupBG b (count_bigrams bgs)).isSome :=
        (lookupBG_isSome_iff b _).mpr ((hmem b).mpr hb)
      have : lookupBG b (count_bigrams bgs) =
          some ((lookupBG b (count_bigrams bgs)).getD 0) := by
        cases h : lookupBG b (count_bigrams bgs)
        · rw [h] at hsome; simp at hsome
        · simp
      rw [this, hget, if_pos hpos]
    · have hzero : bgs.count b = 0 := by
        by_contra h
        exact hb (List.count_pos_iff.mp (Nat.pos_of_ne_zero h))
      have hnone : lookupBG b (count_bigrams bgs) = none := by
        cases h : lookupBG b (count_bigrams bgs) with
        | none => rfl
        | some v =>
          exfalso
          apply hb
          apply (hmem b).mp
          apply (lookupBG_isSome_iff b _).mp
          rw [h]; rfl
      rw [hnone, hzero]
      simp
  · rw [count_bigrams, sumCounts_foldl]
    simp [sumCounts]
  · exact keysBG_nodup_foldl bgs [] (by simp [keysBG])
  · exact counts_pos_foldl bgs [] (by simp)

/-! ### Ranking (`sort_bigram_counts`)

Python's `result.sort()` compares `(count, (w1, w2))` tuples
lexicographically, with strings compared lexicographically by code point.
`ltChars`/`strLTb`/`strLEb` spell out that comparison computably (the
built-in `String` order does not reduce in the kernel), and are proven
equivalent to Mathlib's linear order on `String`. -/

/-- Code-point-lexicographic strict comparison of character lists, as Python
compares strings. -/
def ltChars : List Char → List Char → Bool
  | [], [] => false
  | [], _ :: _ => true
  | _ :: _, [] => false
  | c :: cs, d :: ds => if c < d then true else if d < c then false else ltChars cs ds

/-- Python `a < b` on strings. -/
def strLTb (a b : String) : Bool := ltChars a.data b.data

/-- Python `a <= b` on strings. -/
def strLEb (a b : String) : Bool := strLTb a b || a == b

/-- Python `a <= b` on `(count, (first, second))` tuples: lexicographic on
the count, then the first word, then the second word. -/
def tupLEb (a b : Nat × String × String) : Bool :=
  if a.1 < b.1 then true
  else if a.1 = b.1 then
    (if strLTb a.2.1 b.2.1 then true
     else if a.2.1 = b.2.1 then strLEb a.2.2 b.2.2
     else false)
  else false

/-- The tuple order as a relation. -/
def tupLE (a b : Nat × String × String) : Prop := tupLEb a b = true

instance : DecidableRel tupLE := fun a b => inferInstanceAs (Decidable (tupLEb a b = true))

/-- Embedding of `sort_bigram_counts`: list the `(count, bigram)` pairs of
the table, sort ascending by the Python tuple order, and reverse. (On the
pairwise-distinct tuples coming from a dict, any correct sort agrees with
Python's stable sort.) -/
def sort_bigram_counts (bg_count : FreqTable) : RankedList :=
  (List.insertionSort tupLE (bg_count.map fun p => (p.2, p.1))).reverse

theorem ltChars_iff : ∀ cs ds : List Char, ltChars cs ds = true ↔ List.lt cs ds := by
  intro cs
  induction cs with
  | nil =>
    intro ds
    cases ds with
    | nil =>
      constructor
      · intro h; simp [ltChars] at h
      · intro h; cases h
    | cons d ds =>
      simp only [ltChars]
      constructor
      · intro _; exact List.lt.nil d ds
      · intro _; trivial
  | cons c cs ih =>
    intro ds
    cases ds with
    | nil =>
      constructor
      · intro h; simp [ltChars] at h
      · intro h; cases h
    | cons d ds =>
      by_cases h1 : c < d
      · simp only [ltChars, if_pos h1]
        constructor
        · intro _; exact List.lt.head _ _ h1
        · intro _; trivial
      · by_cases h2 : d < c
        · simp only [ltChars, if_neg h1, if_pos h2]
          constructor
          · intro h; simp at h
          · intro h
            exfalso
            cases h with
            | head _ _ h => exact h1 h
            | tail _ h _ => exact h h2
        · rw [show ltChars (c :: cs) (d :: ds) = ltChars cs ds by
            simp [ltChars, h1, h2], ih ds]
          constructor
          · intro h; exact List.lt.tail h1 h2 h
          · intro h
            cases h with
            | head _ _ h => exact absurd h h1
            | tail _ _ h => exact h

theorem strLTb_iff (a b : String) : strLTb a b = true ↔ a < b :=
  (ltChars_iff a.data b.data).trans
    ((List.lt_iff_lex_lt a.data b.data).trans String.lt_iff_toList_lt.symm)

theorem strLEb_iff (a b : String) : strLEb a b = true ↔ a ≤ b := by
  rw [strLEb, le_iff_lt_or_eq, Bool.or_eq_true, strLTb_iff, beq_iff_eq]

/-- The lexicographic key of a ranked tuple, in Mathlib's lex-product
order. -/
def lexKey (e : Nat × String × String) : ℕ ×ₗ (String ×ₗ String) :=
  toLex (e.1, toLex (e.2.1, e.2.2))

theorem tupLE_iff (a b : Nat × String × String) :
    tupLE a b ↔ lexKey a ≤ lexKey b := by
  have hiff : lexKey a ≤ lexKey b ↔
      a.1 < b.1 ∨ (a.1 = b.1 ∧ (a.2.1 < b.2.1 ∨ (a.2.1 = b.2.1 ∧ a.2.2 ≤ b.2.2))) := by
    rw [lexKey, lexKey, Prod.Lex.le_iff]
    constructor
    · rintro (h | ⟨h1, h2⟩)
      · exact Or.inl h
      · exact Or.inr ⟨h1, (Prod.Lex.le_iff _ _).mp h2⟩
    · rintro (h | ⟨h1, h2⟩)
      · exact Or.inl h
      · exact Or.inr ⟨h1, (Prod.Lex.le_iff _ _).mpr h2⟩
  rw [hiff, tupLE, tupLEb]
  split_ifs with h1 h2 h3 h4
  · simp [h1]
  · simp [strLTb_iff] at h3
    simp [h1, h2, h3]
  · rw [strLEb_iff]
    simp only [strLTb_iff] at h3
    simp [h1, h2, h3, h4]
  · simp only [strLTb_iff] at h3
    simp [h1, h2, h3, h4]
  · simp [h1, h2]

theorem lexKey_inj : ∀ a b : Nat × String × String, lexKey a = lexKey b → a = b := by
  rintro ⟨a1, a2, a3⟩ ⟨b1, b2, b3⟩ h
  simp only [lexKey, toLex_inj, Prod.mk.injEq] at h
  obtain ⟨h1, h2, h3⟩ := h
  simp [h1, h2, h3]

instance : IsTrans (Nat × String × String) tupLE :=
  ⟨fun a b c h1 h2 =>
    (tupLE_iff a c).mpr (le_trans ((tupLE_iff a b).mp h1) ((tupLE_iff b c).mp h2))⟩

instance : IsTotal (Nat × String × String) tupLE :=
  ⟨fun a b =>
    (le_total (lexKey a) (lexKey b)).imp (tupLE_iff a b).mpr (tupLE_iff b a).mpr⟩

instance : IsAntisymm (Nat × String × String) tupLE :=
  ⟨fun a b h1 h2 =>
    lexKey_inj a b (le_antisymm ((tupLE_iff a b).mp h1) ((tupLE_iff b a).mp h2))⟩

example : sort_bigram_counts [(("a","b"), 2), (("b","a"), 2), (("a","c"), 1)]
    = [(2, ("b","a")), (2, ("a","b")), (1, ("a","c"))] := by decide

/-- Witness for C6: the table of `[(a,b), (a,b), (b,a)]` at concrete
inputs. -/
theorem count_bigrams_spec_witness :
    lookupBG ("a", "b") (count_bigrams [("a","b"), ("a","b"), ("b","a")])
      = some 2
    ∧ 1 ≤ ((("a","b"), 2) : Bigram × Nat).2 :=
  ⟨by
    have h := (count_bigrams_spec [("a","b"), ("a","b"), ("b","a")]).1 ("a","b")
    simpa using h,
   (count_bigrams_spec [("a","b"), ("a","b"), ("b","a")]).2.2.2.2
      (("a","b"), 2) (by decide)⟩

theorem sort_bigram_counts_sorted (t : FreqTable) :
    (sort_bigram_counts t).Pairwise (fun a b => tupLE b a) := by
  have hs : List.Pairwise tupLE
      (List.insertionSort tupLE (t.map fun p => (p.2, p.1))) :=
    List.sorted_insertionSort tupLE _
  rw [sort_bigram_counts]
  exact List.pairwise_reverse.mpr hs

theorem sort_bigram_counts_perm (t : FreqTable) :
    (sort_bigram_counts t).Perm (t.map fun p => (p.2, p.1)) := by
  rw [sort_bigram_counts]
  exact (List.reverse_perm _).trans (List.perm_insertionSort tupLE _)

/-- C1: for every frequency table, the ranked list built by
`sort_bigram_counts` is sorted by descending count with ties broken by
descending lexicographic order of the bigram pair (each later entry is
`tupLE`-below each earlier one), and on the table
`{(a,b): 2, (b,a): 2, (a,c): 1}` the build returns exactly
`[(2,(b,a)), (2,(a,b)), (1,(a,c))]`. -/
theorem sort_bigram_counts_desc_and_example :
    (∀ t : FreqTable, (sort_bigram_counts t).Pairwise (fun a b => tupLE b a))
    ∧ sort_bigram_counts [(("a","b"), 2), (("b","a"), 2), (("a","c"), 1)]
        = [(2, ("b","a")), (2, ("a","b")), (1, ("a","c"))] :=
  ⟨sort_bigram_counts_sorted, by decide⟩

/-- C7: `make_bigrams` on a token list of length `N` produces exactly
`max (N-1) 0` bigrams (`N - 1` in truncated subtraction), the bigram at
position `i` is `(token i, token (i+1))` for every `i < N - 1`, and for
`N ≤ 1` the result is empty. -/
theorem make_bigrams_spec (words : List String) :
    (make_bigrams words).length = words.length - 1
    ∧ (∀ i : Nat, i < words.length - 1 →
        (make_bigrams words).getD i ("", "") =
          (words.getD i "", words.getD (i + 1) ""))
    ∧ (words.length ≤ 1 → make_bigrams words = []) :=
  ⟨make_bigrams_length words, fun i h => make_bigrams_getD words i h,
    fun h => by
      have := make_bigrams_length words
      cases hmb : make_bigrams words with
      | nil => rfl
      | cons p l => rw [hmb] at this; simp at this; omega⟩

/-- Witness for C7 at a concrete input. -/
theorem make_bigrams_spec_witness :
    (make_bigrams ["a", "b", "c"]).length = 3 - 1
    ∧ (make_bigrams ["a", "b", "c"]).getD 1 ("", "") = ("b", "c")
    ∧ make_bigrams ["a"] = [] :=
  ⟨(make_bigrams_spec ["a", "b", "c"]).1,
    by
      have h := (make_bigrams_spec ["a", "b", "c"]).2.1 1 (by decide)
      simpa using h,
    (make_bigrams_spec ["a"]).2.2 (by decide)⟩

theorem lookupBG_eq_some_of_mem (t : FreqTable) (k : Bigram) (v : Nat)
    (hnd : (keysBG t).Nodup) (hmem : (k, v) ∈ t) : lookupBG k t = some v := by
  induction t with
  | nil => cases hmem
  | cons p t ih =>
    obtain ⟨k0, v0⟩ := p
    simp only [keysBG, List.map_cons, List.nodup_cons] at hnd
    rcases List.mem_cons.mp hmem with h | h
    · injection h with h1 h2
      subst h1; subst h2
      simp [lookupBG]
    · have hk0 : k0 ≠ k := by
        intro he
        subst he
        exact hnd.1 (by
          have : (k0, v) ∈ t := h
          exact List.mem_map_of_mem Prod.fst this)
      rw [lookupBG, if_neg hk0]
      exact ih (by simpa [keysBG] using hnd.2) h

theorem mem_of_lookupBG_eq_some (t : FreqTable) (k : Bigram) (v : Nat)
    (h : lookupBG k t = some v) : (k, v) ∈ t := by
  induction t with
  | nil => simp [lookupBG] at h
  | cons p t ih =>
    obtain ⟨k0, v0⟩ := p
    by_cases hk : k0 = k
    · subst hk
      rw [lookupBG, if_pos rfl] at h
      injection h with h
      subst h
      exact List.mem_cons_self _ _
    · rw [lookupBG, if_neg hk] at h
      exact List.mem_cons_of_mem _ (ih h)

/-- C8: the ranked-index build is deterministic: two frequency tables that
are equal as mappings (same lookup on every bigram, no duplicate keys —
i.e. the same dict, whatever its insertion/iteration order) produce
identical ranked lists, tied entries included. -/
theorem sort_bigram_counts_deterministic (t₁ t₂ : FreqTable)
    (h₁ : (keysBG t₁).Nodup) (h₂ : (keysBG t₂).Nodup)
    (hlook : ∀ b : Bigram, lookupBG b t₁ = lookupBG b t₂) :
    sort_bigram_counts t₁ = sort_bigram_counts t₂ := by
  have hnd₁ : t₁.Nodup := List.Nodup.of_map Prod.fst h₁
  have hnd₂ : t₂.Nodup := List.Nodup.of_map Prod.fst h₂
  have hperm : t₁.Perm t₂ := by
    rw [List.perm_ext_iff_of_nodup hnd₁ hnd₂]
    rintro ⟨k, v⟩
    constructor
    · intro hm
      exact mem_of_lookupBG_eq_some t₂ k v
        ((hlook k).symm.trans (lookupBG_eq_some_of_mem t₁ k v h₁ hm))
    · intro hm
      exact mem_of_lookupBG_eq_some t₁ k v
        ((hlook k).trans (lookupBG_eq_some_of_mem t₂ k v h₂ hm))
  have hmap : (t₁.map fun p => (p.2, p.1)).Perm (t₂.map fun p => (p.2, p.1)) :=
    hperm.map _
  have hsorted₁ := List.sorted_insertionSort tupLE (t₁.map fun p => (p.2, p.1))
  have hsorted₂ := List.sorted_insertionSort tupLE (t₂.map fun p => (p.2, p.1))
  have hp : (List.insertionSort tupLE (t₁.map fun p => (p.2, p.1))).Perm
      (List.insertionSort tupLE (t₂.map fun p => (p.2, p.1))) :=
    ((List.perm_insertionSort tupLE _).trans hmap).trans
      (List.perm_insertionSort tupLE _).symm
  rw [sort_bigram_counts, sort_bigram_counts,
    List.eq_of_perm_of_sorted hp hsorted₁ hsorted₂]

/-- Witness for C8: two insertion orders of the same table rank
identically. -/
theorem sort_bigram_counts_deterministic_witness :
    sort_bigram_counts [(("a","b"), 2), (("a","c"), 1)]
      = sort_bigram_counts [(("a","c"), 1), (("a","b"), 2)] :=
  sort_bigram_counts_deterministic
    [(("a","b"), 2), (("a","c"), 1)] [(("a","c"), 1), (("a","b"), 2)]
    (by decide) (by decide)
    (by
      intro b
      by_cases h1 : ("a","b") = b
      · subst h1; decide
      · by_cases h2 : ("a","c") = b
        · subst h2; decide
        · simp [lookupBG, h1, h2])

/-! ### Queries on the ranked list -/

/-- Embedding of `num_start_with`:
`sum(cp[0] for cp in counts if cp[1][0] == w)`. -/
def num_start_with (w : String) (counts : RankedList) : Nat :=
  (((counts.filter fun cp => cp.2.1 = w).map fun cp => cp.1)).sum

/-- Embedding of `suggest_next`: the first `num_suggestions` `(count, bigram)`
pairs of the ranked list whose bigram starts with `word`. -/
def suggest_next (word : String) (counts : RankedList)
    (num_suggestions : Nat := 5) : RankedList :=
  (counts.filter fun e => e.2.1 = word).take num_suggestions

/-- Embedding of `get_most_freq_after`: scan the ranked list for the first
entry whose bigram starts with `w` and return its second word, or the
empty-string sentinel when none matches. -/
def get_most_freq_after (w : String) : RankedList → String
  | [] => ""
  | (_, bg) :: rest => if bg.1 = w then bg.2 else get_most_freq_after w rest

/-- One printed suggestion line of `report_info`:
`'{bg[0]} {bg[1]} ({100*c/w_total:.1f}%, {c})'`, with the percentage kept
as the exact rational `100*c/w_total`. -/
structure InfoLine where
  first : String
  second : String
  pct : ℚ
  count : Nat
  deriving DecidableEq, Repr

/-- The loop body of `report_info`: one `InfoLine` per suggestion pair, or
`none` — Python's `ZeroDivisionError` — as soon as a line divides by a zero
total. -/
def infoLines (w_total : Nat) : RankedList → Option (List InfoLine)
  | [] => some []
  | e :: rest =>
    if w_total = 0 then none
    else
      (infoLines w_total rest).map fun ls =>
        ⟨e.2.1, e.2.2, (100 * e.1 : ℚ) / (w_total : ℚ), e.1⟩ :: ls

/-- Embedding of `report_info`: the header total together with the printed
suggestion lines; `none` when Python would raise `ZeroDivisionError`. -/
def report_info (w : String) (counts : RankedList) :
    Option (Nat × List InfoLine) :=
  let w_total := num_start_with w counts
  let w_pairs := suggest_next w counts 5
  (infoLines w_total w_pairs).map fun ls => (w_total, ls)

/-- The loop of `word_sequence`: the `length` successive next-words
appended after `w`, each obtained by `get_most_freq_after` on the previous
one. -/
def wordChain (counts : RankedList) : String → Nat → List String
  | _, 0 => []
  | w, Nat.succ n =>
    let next_word := get_most_freq_after w counts
    next_word :: wordChain counts next_word n

/-- Embedding of `word_sequence`: the start word followed by `length`
successive applications of `get_most_freq_after`, each fed the previous
result. -/
def word_sequence (start_word : String) (counts : RankedList)
    (length : Nat := 5) : List String :=
  start_word :: wordChain counts start_word length

example :
    word_sequence "a" (sort_bigram_counts (count_bigrams
      (make_bigrams ["a", "b", "a", "b", "a", "c"]))) 2 = ["a", "b", "a"] := by
  decide

example :
    report_info "xyz" (sort_bigram_counts (count_bigrams
      (make_bigrams ["a", "b", "a", "b", "a", "c"]))) = some (0, []) := by
  decide

/-- C2: on a word that is the first element of no bigram in the ranked
list, `report_info` prints the zero-total header (`0 bigrams start with
...`) and no suggestion lines; in particular the percentage ratio is never
computed and no division error can be raised. -/
theorem report_info_no_data (w : String) (counts : RankedList)
    (h : ∀ e ∈ counts, e.2.1 ≠ w) :
    report_info w counts = some (0, []) := by
  have hfilter : counts.filter (fun cp => cp.2.1 = w) = [] := by
    rw [List.filter_eq_nil_iff]
    intro e he
    simpa using h e he
  have htotal : num_start_with w counts = 0 := by
    rw [num_start_with]
    have : counts.filter (fun cp => decide (cp.2.1 = w)) = [] := hfilter
    rw [this]
    rfl
  have hpairs : suggest_next w counts 5 = [] := by
    rw [suggest_next]
    have : counts.filter (fun cp => decide (cp.2.1 = w)) = [] := hfilter
    rw [this]
    rfl
  rw [report_info]
  simp only [htotal, hpairs, infoLines]
  rfl

/-- Witness for C2: the word `xyz` starts no bigram of the scenario corpus. -/
theorem report_info_no_data_witness :
    report_info "xyz" (sort_bigram_counts (count_bigrams
      (make_bigrams ["a", "b", "a", "b", "a", "c"]))) = some (0, []) :=
  report_info_no_data "xyz" _ (by decide)

theorem get_most_freq_after_eq_head (w : String) (counts : RankedList) :
    get_most_freq_after w counts =
      ((suggest_next w counts 1).head?.map fun e => e.2.2).getD "" := by
  induction counts with
  | nil => rfl
  | cons e rest ih =>
    obtain ⟨c, bg⟩ := e
    by_cases h : bg.1 = w
    · simp [get_most_freq_after, suggest_next, h]
    · simpa [get_most_freq_after, suggest_next, h] using ih

/-- C5: `get_most_freq_after w` agrees with `suggest_next w _ 1`: when the
one-element suggestion list is empty it returns the empty-string sentinel,
and when it is non-empty it returns the second word of its single (head)
entry. -/
theorem get_most_freq_after_spec (w : String) (counts : RankedList) :
    (suggest_next w counts 1 = [] → get_most_freq_after w counts = "")
    ∧ (∀ (c : Nat) (bg : Bigram) (rest : RankedList),
        suggest_next w counts 1 = (c, bg) :: rest →
          get_most_freq_after w counts = bg.2) := by
  constructor
  · intro h
    rw [get_most_freq_after_eq_head, h]
    rfl
  · intro c bg rest h
    rw [get_most_freq_after_eq_head, h]
    rfl

/-- Witness for C5: both cases at concrete inputs. -/
theorem get_most_freq_after_spec_witness :
    get_most_freq_after "z" [(1, ("a","b"))] = ""
    ∧ get_most_freq_after "a" [(1, ("a","b"))] = "b" :=
  ⟨(get_most_freq_after_spec "z" [(1, ("a","b"))]).1 (by decide),
    (get_most_freq_after_spec "a" [(1, ("a","b"))]).2 1 ("a","b") [] (by decide)⟩

/-! ### The word-sequence generator -/

theorem wordChain_length (counts : RankedList) :
    ∀ (L : Nat) (w : String), (wordChain counts w L).length = L := by
  intro L
  induction L with
  | zero => intro w; rfl
  | succ n ih => intro w; simp [wordChain, ih]

theorem word_sequence_succ (start : String) (counts : RankedList) (L : Nat) :
    word_sequence start counts (L + 1) =
      start :: word_sequence (get_most_freq_after start counts) counts L := rfl

theorem word_sequence_getD (counts : RankedList) :
    ∀ (L : Nat) (start : String) (i : Nat) (d : String), i ≤ L →
      (word_sequence start counts L).getD i d =
        ((fun w => get_most_freq_after w counts)^[i]) start := by
  intro L
  induction L with
  | zero =>
    intro start i d hi
    interval_cases i
    rfl
  | succ n ih =>
    intro start i d hi
    cases i with
    | zero => rfl
    | succ i =>
      rw [word_sequence_succ]
      have : (start :: word_sequence (get_most_freq_after start counts) counts n).getD
          (i + 1) d = (word_sequence (get_most_freq_after start counts) counts n).getD i d := by
        simp [List.getD_cons_succ]
      rw [this, ih _ i d (by omega), Function.iterate_succ_apply]

theorem make_bigrams_mem (words : List String) :
    ∀ bg ∈ make_bigrams words, bg.1 ∈ words ∧ bg.2 ∈ words := by
  intro bg hbg
  rw [make_bigrams] at hbg
  obtain ⟨i, hi, heq⟩ := List.mem_map.mp hbg
  have hir := List.mem_range'_1.mp hi
  have h1 : 1 ≤ i := hir.1
  have h2 : i < words.length := by omega
  have h3 : i - 1 < words.length := by omega
  rw [← heq]
  constructor
  · rw [List.getD_eq_getElem _ _ h3]
    exact List.getElem_mem _
  · rw [List.getD_eq_getElem _ _ h2]
    exact List.getElem_mem _

theorem counts_first_mem (words : List String) :
    ∀ e ∈ sort_bigram_counts (count_bigrams (make_bigrams words)),
      e.2.1 ∈ words := by
  intro e he
  have hperm := sort_bigram_counts_perm (count_bigrams (make_bigrams words))
  have he2 := hperm.subset he
  obtain ⟨p, hp, heq⟩ := List.mem_map.mp he2
  have hkey : p.1 ∈ keysBG (count_bigrams (make_bigrams words)) :=
    List.mem_map_of_mem Prod.fst hp
  have hbg : p.1 ∈ make_bigrams words :=
    ((count_bigrams_spec (make_bigrams words)).2.2.1 p.1).mp hkey
  have := (make_bigrams_mem words p.1 hbg).1
  rw [← heq]
  exact this

theorem get_most_freq_after_sentinel (counts : RankedList)
    (h : ∀ e ∈ counts, e.2.1 ≠ "") : get_most_freq_after "" counts = "" := by
  induction counts with
  | nil => rfl
  | cons e rest ih =>
    obtain ⟨c, bg⟩ := e
    have hbg : bg.1 ≠ "" := h (c, bg) (List.mem_cons_self _ _)
    rw [get_most_freq_after, if_neg fun hc => hbg hc]
    exact ih fun e he => h e (List.mem_cons_of_mem _ he)

/-- C4: against a ranked list built from a tokenized corpus (whose tokens
are never the empty string), `word_sequence` returns exactly `L+1` words —
the start word followed by the `i`-th iterate of `get_most_freq_after` at
position `i` — and once an entry is the empty-string sentinel every later
entry up to position `L` is the sentinel too. -/
theorem word_sequence_spec (words : List String) (start : String) (L : Nat)
    (hw : ∀ w ∈ words, w ≠ "") :
    (word_sequence start (sort_bigram_counts (count_bigrams
        (make_bigrams words))) L).length = L + 1
    ∧ (∀ (i : Nat) (d : String), i ≤ L →
        (word_sequence start (sort_bigram_counts (count_bigrams
            (make_bigrams words))) L).getD i d =
          ((fun w => get_most_freq_after w (sort_bigram_counts (count_bigrams
              (make_bigrams words))))^[i]) start)
    ∧ (∀ i j : Nat, i ≤ j → j ≤ L →
        (word_sequence start (sort_bigram_counts (count_bigrams
            (make_bigrams words))) L).getD i "?" = "" →
        (word_sequence start (sort_bigram_counts (count_bigrams
            (make_bigrams words))) L).getD j "?" = "") := by
  set counts := sort_bigram_counts (count_bigrams (make_bigrams words)) with hc
  have hfirst : ∀ e ∈ counts, e.2.1 ≠ "" := by
    intro e he heq
    have hmem := counts_first_mem words e he
    rw [heq] at hmem
    exact hw "" hmem rfl
  have hsent : get_most_freq_after "" counts = "" :=
    get_most_freq_after_sentinel counts hfirst
  refine ⟨?_, fun i d hi => word_sequence_getD counts L start i d hi, ?_⟩
  · simp [word_sequence, wordChain_length]
  · intro i j hij hj hzero
    rw [word_sequence_getD counts L start i "?" (le_trans hij hj)] at hzero
    rw [word_sequence_getD counts L start j "?" hj]
    obtain ⟨k, rfl⟩ : ∃ k, j = i + k := ⟨j - i, by omega⟩
    rw [Nat.add_comm, Function.iterate_add_apply, hzero]
    clear hzero hij hj
    induction k with
    | zero => rfl
    | succ n ih =>
      rw [Function.iterate_succ_apply, hsent, ih]

/-- Witness for C4: corpus `["a","b"]`, start `"b"`, length 2 — the chain
is `["b","",""]` and the sentinel at position 1 propagates to position 2. -/
theorem word_sequence_spec_witness :
    (word_sequence "b" (sort_bigram_counts (count_bigrams
        (make_bigrams ["a", "b"]))) 2).getD 2 "?" = "" :=
  (word_sequence_spec ["a", "b"] "b" 2 (by decide)).2.2 1 2
    (by decide) (by decide) (by decide)

theorem counts_pos_sorted (bgs : List Bigram) :
    ∀ e ∈ sort_bigram_counts (count_bigrams bgs), 1 ≤ e.1 := by
  intro e he
  have hperm := sort_bigram_counts_perm (count_bigrams bgs)
  obtain ⟨p, hp, heq⟩ := List.mem_map.mp (hperm.subset he)
  have := (count_bigrams_spec bgs).2.2.2.2 p hp
  rw [← heq]
  exact this

theorem filter_eq_nil_of_total_zero (w : String) (counts : RankedList)
    (hpos : ∀ e ∈ counts, 1 ≤ e.1) (h : num_start_with w counts = 0) :
    counts.filter (fun cp => decide (cp.2.1 = w)) = [] := by
  cases hf : counts.filter (fun cp => decide (cp.2.1 = w)) with
  | nil => rfl
  | cons e rest =>
    exfalso
    have he : e ∈ counts.filter (fun cp => decide (cp.2.1 = w)) := by
      rw [hf]; exact List.mem_cons_self _ _
    have h1 : 1 ≤ e.1 := hpos e (List.mem_of_mem_filter he)
    rw [num_start_with, hf] at h
    simp at h
    omega

theorem infoLines_isSome (w_total : Nat) (h : w_total ≠ 0) :
    ∀ l : RankedList, (infoLines w_total l).isSome := by
  intro l
  induction l with
  | nil => rfl
  | cons e rest ih =>
    rw [infoLines, if_neg h]
    cases hr : infoLines w_total rest with
    | none => rw [hr] at ih; simp at ih
    | some ls => simp

/-- C9: on a ranked list built by `sort_bigram_counts` from a
`count_bigrams` table (every listed count is at least 1), a zero
`num_start_with` total forces the filtered suggestion list to be empty, so
the percentage division is performed only when the total is at least 1 and
`report_info` never hits a division by zero — despite having no explicit
guard. -/
theorem report_info_safe (bgs : List Bigram) (w : String) :
    (num_start_with w (sort_bigram_counts (count_bigrams bgs)) = 0 →
      suggest_next w (sort_bigram_counts (count_bigrams bgs)) 5 = [])
    ∧ (report_info w (sort_bigram_counts (count_bigrams bgs))).isSome = true := by
  set counts := sort_bigram_counts (count_bigrams bgs) with hc
  have hpos : ∀ e ∈ counts, 1 ≤ e.1 := counts_pos_sorted bgs
  have hkey : num_start_with w counts = 0 →
      counts.filter (fun cp => decide (cp.2.1 = w)) = [] :=
    filter_eq_nil_of_total_zero w counts hpos
  have hsugg : num_start_with w counts = 0 → suggest_next w counts 5 = [] := by
    intro h
    rw [suggest_next, hkey h]
    rfl
  refine ⟨hsugg, ?_⟩
  have hrw : report_info w counts =
      (infoLines (num_start_with w counts) (suggest_next w counts 5)).map
        fun ls => (num_start_with w counts, ls) := rfl
  rw [hrw]
  cases hn : num_start_with w counts with
  | zero =>
    rw [hsugg hn]
    rfl
  | succ n =>
    have hsome := infoLines_isSome (n + 1) (by omega) (suggest_next w counts 5)
    cases hm : infoLines (n + 1) (suggest_next w counts 5) with
    | none => rw [hm] at hsome; simp at hsome
    | some ls => simp

/-- Witness for C9: the word `c` starts no bigram of the table built from
`[("a","b")]`. -/
theorem report_info_safe_witness :
    suggest_next "c" (sort_bigram_counts (count_bigrams [("a","b")])) 5 = []
    ∧ (report_info "c" (sort_bigram_counts
        (count_bigrams [("a","b")]))).isSome = true :=
  ⟨(report_info_safe [("a","b")] "c").1 (by decide),
    (report_info_safe [("a","b")] "c").2⟩

/-! ### The query loop (`interact`)

Each cycle runs `terms = input('--> ').strip().lower().split(' ')` and
dispatches on `terms`. Note that Python's `split(' ')` splits at every
single space character and keeps empty pieces — it is not the
whitespace-run splitting of `split()`. -/

/-- Split a character list at every separator character (Python's
`split(sep)` keeping empty pieces): `''.split(' ') == ['']`,
`'a  b'.split(' ') == ['a', '', 'b']`. -/
def splitP (p : Char → Bool) : List Char → List (List Char)
  | [] => [[]]
  | c :: cs =>
    if p c then [] :: splitP p cs
    else
      match splitP p cs with
      | [] => [[c]]
      | t :: ts => (c :: t) :: ts

/-- Python `str.strip()`: drop leading and trailing whitespace. -/
def pyStrip (s : String) : String :=
  ⟨((s.data.dropWhile Char.isWhitespace).reverse.dropWhile
      Char.isWhitespace).reverse⟩

/-- Python `str.lower()` (over the ASCII range relevant here). -/
def pyLower (s : String) : String := ⟨s.data.map Char.toLower⟩

/-- The term list the query loop actually computes:
`line.strip().lower().split(' ')`. -/
def lineTerms (line : String) : List String :=
  (splitP (fun c => c = ' ') (pyLower (pyStrip line)).data).map
    fun cs => (⟨cs⟩ : String)

/-- Following the spec's words, not the code: the whitespace-delimited
terms of the line, i.e. Python `str.split()` — split at whitespace runs,
discarding empty pieces. Used to state C3 as written. -/
def specWhitespaceTerms (line : String) : List String :=
  ((splitP Char.isWhitespace (pyLower (pyStrip line)).data).filter
    fun cs => cs ≠ []).map fun cs => (⟨cs⟩ : String)

example : lineTerms "a  b" = ["a", "", "b"] := by decide

example : specWhitespaceTerms "a  b" = ["a", "b"] := by decide

example : lineTerms "" = [""] := by decide

/-- The observable reply of one query-loop cycle. -/
inductive Reply where
  | invalid (terms : List String)
  | quit
  | unknown (term : String)
  | info (result : Option (Nat × List InfoLine))
  | seq (ws : List String)
  deriving DecidableEq

/-- Embedding of the dispatch in `interact`'s loop body, after the input
line has been split into `terms`. The `info` branch queries the `counts`
parameter; the `seq` branch queries the module-level `sorted_counts`
variable, passed here as the extra `sorted_counts` argument. -/
def interactStep (counts sorted_counts : RankedList)
    (terms : List String) : Reply :=
  let n := terms.length
  if n = 0 ∨ n > 2 then Reply.invalid terms
  else if n = 1 then
    if terms.getD 0 "" = "quit" then Reply.quit
    else Reply.unknown (terms.getD 0 "")
  else
    if terms.getD 0 "" = "info" then
      Reply.info (report_info (terms.getD 1 "") counts)
    else if terms.getD 0 "" = "seq" then
      Reply.seq (word_sequence (terms.getD 1 "") sorted_counts 5)
    else Reply.unknown (terms.getD 0 "")

/-- One full cycle on a raw input line. -/
def respondLine (counts sorted_counts : RankedList) (line : String) : Reply :=
  interactStep counts sorted_counts (lineTerms line)

/-- Whether a reply is the "invalid command" report. -/
def isInvalid : Reply → Bool
  | Reply.invalid _ => true
  | _ => false

theorem splitP_ne_nil (p : Char → Bool) : ∀ cs : List Char, splitP p cs ≠ [] := by
  intro cs
  cases cs with
  | nil => simp [splitP]
  | cons c cs =>
    rw [splitP]
    by_cases h : p c
    · simp [h]
    · simp only [h, if_false, Bool.false_eq_true]
      cases splitP p cs <;> simp

theorem lineTerms_ne_nil (line : String) : 1 ≤ (lineTerms line).length := by
  rw [lineTerms, List.length_map]
  cases h : splitP (fun c => c = ' ') (pyLower (pyStrip line)).data with
  | nil => exact absurd h (splitP_ne_nil _ _)
  | cons t ts => simp

/-- C3 fails on the code: the loop splits on single spaces, not whitespace
runs. The line `"a  b"` has exactly two whitespace-delimited terms yet is
reported as invalid (its single-space split is `["a", "", "b"]`), and the
empty line has zero whitespace-delimited terms yet is reported as
`unknown command` rather than invalid (its split is `[""]`). -/
theorem interact_invalid_counterexample :
    ¬ (∀ (counts sorted_counts : RankedList) (line : String),
        isInvalid (respondLine counts sorted_counts line) = true ↔
          ((specWhitespaceTerms line).length = 0
            ∨ 2 < (specWhitespaceTerms line).length)) := by
  intro h
  have h2 := (h [] [] "a  b").mp (by decide)
  revert h2
  decide

/-- C3 amended: the loop splits the stripped, lowercased line at single
space characters, so at least one term always results (an empty or
all-whitespace line yields the single term `""`, reported as
`unknown command`); "invalid command" is reported exactly when the split
produces more than two terms — which can happen for two words separated by
a run of several spaces, while zero terms can never happen. -/
theorem interact_invalid_iff (counts sorted_counts : RankedList)
    (line : String) :
    1 ≤ (lineTerms line).length
    ∧ (isInvalid (respondLine counts sorted_counts line) = true ↔
        2 < (lineTerms line).length)
    ∧ respondLine counts sorted_counts "" = Reply.unknown "" := by
  refine ⟨lineTerms_ne_nil line, ?_, rfl⟩
  have h1 := lineTerms_ne_nil line
  rw [respondLine, interactStep]
  by_cases h : (lineTerms line).length = 0 ∨ (lineTerms line).length > 2
  · rw [if_pos h]
    simp only [isInvalid, true_iff]
    omega
  · rw [if_neg h]
    have h2 : ¬ 2 < (lineTerms line).length := by omega
    by_cases hn1 : (lineTerms line).length = 1
    · rw [if_pos hn1]
      by_cases hq : (lineTerms line).getD 0 "" = "quit"
      · rw [if_pos hq]
        simp [isInvalid, h2]
      · rw [if_neg hq]
        simp [isInvalid, h2]
    · rw [if_neg hn1]
      by_cases hi : (lineTerms line).getD 0 "" = "info"
      · rw [if_pos hi]
        simp [isInvalid, h2]
      · rw [if_neg hi]
        by_cases hs : (lineTerms line).getD 0 "" = "seq"
        · rw [if_pos hs]
          simp [isInvalid, h2]
        · rw [if_neg hs]
          simp [isInvalid, h2]

/-- Witness for the amended C3: `"a  b"` (two spaces) splits into three
terms and is reported invalid. -/
theorem interact_invalid_iff_witness :
    isInvalid (respondLine [] [] "a  b") = true :=
  (interact_invalid_iff [] [] "a  b").2.1.mpr (by decide)

/-- C10: the `seq` branch reads the module-level `sorted_counts`, not the
`counts` parameter of `interact`: a `seq` command's reply is identical for
any two `counts` arguments under the same global ranked list, while an
`info` command's reply does depend on the `counts` argument. -/
theorem interact_seq_uses_global :
    (∀ (counts₁ counts₂ sorted_counts : RankedList) (w : String),
        interactStep counts₁ sorted_counts ["seq", w] =
          interactStep counts₂ sorted_counts ["seq", w])
    ∧ (∃ (counts₁ counts₂ sorted_counts : RankedList) (w : String),
        interactStep counts₁ sorted_counts ["info", w] ≠
          interactStep counts₂ sorted_counts ["info", w]) := by
  constructor
  · intro counts₁ counts₂ sorted_counts w
    rfl
  · exact ⟨[], [(1, ("a", "b"))], [], "a", by decide⟩

end Bigrams
